import Mathlib

/-!
Verification development for the fvhyper explicit finite-volume engine
(src/fvhyper/src/explicit.cpp, with the user kernels of
src/examples/forwardStep/main.cpp).

Shallow embedding conventions:
* `double` values are modelled as exact rationals `ℚ`.
* A flat per-cell per-variable field `std::vector<double>` of length
  `vars * Ncells`, indexed `[vars*cell + k]`, is modelled as a total
  function `Field := Nat → ℚ`; only indices below `vars * nCells` are
  meaningful and every loop bound is carried explicitly.
* The C library `sqrt` is an opaque real operation; functions calling it
  take an explicit `sqrtFn : ℚ → ℚ` parameter standing for it.  None of
  the engine properties proved below depend on which function it is.
* The mesh container (declared in fvhyper/mesh.h, not part of the three
  source files) is modelled from the spec, §3: cells carry an area, a
  centroid and an `is_ghost` flag; edges carry the two incident cell
  indices `edgesCells(e,0/1)`, a normal, a length and a center; boundary
  edges carry a kernel; indices `0..nRealCells-1` are owned cells and
  `nRealCells..nCells-1` are ghosts.
-/

namespace Fvhyper

/-- A flat per-cell per-variable field, `f (vars*cell + k)` being the
`k`-th variable of `cell`. -/
abbrev Field := Nat → ℚ

/-- The view `&q[vars*c]` of a flat field: component `k` of cell `c`. -/
def off (V c : Nat) (f : Field) : Nat → ℚ := fun k => f (V * c + k)

/-- The loop `for (k = 0; k < V; ++k) f[V*base + k] = upd k f[V*base+k]`,
as a single pointwise write on the block `[V*base, V*base + V)`. -/
def setK (V base : Nat) (upd : Nat → ℚ → ℚ) (f : Field) : Field :=
  fun idx =>
    if V * base ≤ idx ∧ idx < V * base + V then upd (idx - V * base) (f idx)
    else f idx

/-- One mesh edge: `c0 = edgesCells(e,0)`, `c1 = edgesCells(e,1)`,
normal `(nx,ny)`, length `len`, center `(ex,ey)`. -/
structure Edge where
  c0 : Nat
  c1 : Nat
  nx : ℚ
  ny : ℚ
  len : ℚ
  ex : ℚ
  ey : ℚ

/-- A boundary-edge binding: the boundary edge `edge` together with the
user boundary kernel attached to it (`m.boundaryFuncs[i]`).  The kernel
receives the owned-cell state view `&q[vars*edgesCells(e,0)]` and the edge
normal, and produces the `vars` ghost-cell values it writes to
`&q[vars*edgesCells(e,1)]`; modelling it as a pure function of those
inputs is exactly the "pure boundary kernel" contract of the spec, §4.2. -/
structure BoundaryBinding where
  edge : Edge
  kernel : (Nat → ℚ) → ℚ × ℚ → Nat → ℚ

/-- Modelled from the spec: the mesh container of fvhyper/mesh.h (§3 of the
spec), restricted to the attributes the explicit engine reads.
`nCells` is `cellsAreas.size()`. -/
structure Mesh where
  nRealCells : Nat
  nCells : Nat
  cellsAreas : Nat → ℚ
  cellsCentersX : Nat → ℚ
  cellsCentersY : Nat → ℚ
  cellsIsGhost : Nat → Bool
  edges : List Edge
  bounds : List BoundaryBinding

/- ### Index-block arithmetic -/

theorem block_mem_iff {V c k b : Nat} (hk : k < V) :
    (V * b ≤ V * c + k ∧ V * c + k < V * b + V) ↔ c = b := by
  constructor
  · rintro ⟨h1, h2⟩
    rcases Nat.lt_trichotomy c b with h | h | h
    · exfalso
      have hcb : c + 1 ≤ b := h
      have : V * (c + 1) ≤ V * b := Nat.mul_le_mul_left V hcb
      rw [Nat.mul_succ] at this
      omega
    · exact h
    · exfalso
      have hbc : b + 1 ≤ c := h
      have : V * (b + 1) ≤ V * c := Nat.mul_le_mul_left V hbc
      rw [Nat.mul_succ] at this
      omega
  · rintro rfl
    omega

theorem setK_same {V b k : Nat} (hk : k < V) (upd : Nat → ℚ → ℚ) (f : Field) :
    setK V b upd f (V * b + k) = upd k (f (V * b + k)) := by
  have h : V * b ≤ V * b + k ∧ V * b + k < V * b + V := by omega
  simp only [setK, if_pos h, Nat.add_sub_cancel_left]

theorem setK_other {V b c k : Nat} (hk : k < V) (hne : c ≠ b)
    (upd : Nat → ℚ → ℚ) (f : Field) :
    setK V b upd f (V * c + k) = f (V * c + k) := by
  have h : ¬(V * b ≤ V * c + k ∧ V * c + k < V * b + V) := by
    intro hmem
    exact hne ((block_mem_iff hk).mp hmem)
  simp only [setK, if_neg h]

theorem setK_out {V b : Nat} {idx : Nat}
    (h : ¬(V * b ≤ idx ∧ idx < V * b + V))
    (upd : Nat → ℚ → ℚ) (f : Field) :
    setK V b upd f idx = f idx := by
  simp only [setK, if_neg h]

/- ### calc_gradients (explicit.cpp lines 21-70) -/

/-- The body of the green-gauss edge loop of `calc_gradients`: for an edge
with `i ≠ j`, `f[k] = (q[V*i+k]+q[V*j+k]) * 0.5 * le` is accumulated with
weights `+nx` and `+ny` on cell `i`, `-nx` and `-ny` on cell `j`. -/
def gradEdge (V : Nat) (q : Field) (gg : Field × Field) (e : Edge) :
    Field × Field :=
  if e.c0 ≠ e.c1 then
    let f : Nat → ℚ := fun k => (q (V * e.c0 + k) + q (V * e.c1 + k)) * (1/2) * e.len
    let gx1 := setK V e.c0 (fun k x => x + f k * e.nx) gg.1
    let gy1 := setK V e.c0 (fun k x => x + f k * e.ny) gg.2
    let gx2 := setK V e.c1 (fun k x => x - f k * e.nx) gx1
    let gy2 := setK V e.c1 (fun k x => x - f k * e.ny) gy1
    (gx2, gy2)
  else gg

/-- `calc_gradients`: zero the accumulators, accumulate every edge,
normalize the cells `i < nRealCells` by `1/area`, then zero the cells
`nRealCells ≤ i < nCells`.  The two final loops write each flat index at
most once, so they are rendered pointwise through `idx / V`. -/
def calc_gradients (V : Nat) (m : Mesh) (q : Field) : Field × Field :=
  let gg := m.edges.foldl (gradEdge V q) (fun _ => 0, fun _ => 0)
  let norm : Field → Field := fun g idx =>
    if idx / V < m.nRealCells then g idx * (1 / m.cellsAreas (idx / V)) else g idx
  let zeroBig : Field → Field := fun g idx =>
    if m.nRealCells ≤ idx / V ∧ idx / V < m.nCells then 0 else g idx
  (zeroBig (norm gg.1), zeroBig (norm gg.2))

theorem flat_div {V c k : Nat} (hk : k < V) : (V * c + k) / V = c := by
  have hV : 0 < V := Nat.lt_of_le_of_lt (Nat.zero_le k) hk
  rw [Nat.mul_add_div hV, Nat.div_eq_of_lt hk, Nat.add_zero]

/- ### limiter_func (examples/forwardStep/main.cpp lines 57-66) -/

/-- The Michalak limiter function of the forward-step example, with
threshold `yt = 2`. -/
def limiter_func (y : ℚ) : ℚ :=
  let yt : ℚ := 2
  if y ≥ yt then 1
  else
    let a := 1 / (yt * yt) - 2 / (yt * yt * yt)
    let b := -(3 / 2) * a * yt - (1/2) / yt
    a * y * y * y + b * y * y + y

/- ### calc_limiters (explicit.cpp lines 73-155) -/

/-- Phase 1 edge sweep of `calc_limiters`: fold pairwise min/max of the
two endpoint states into both endpoints' `qmin`/`qmax` accumulators. -/
def minmaxEdge (V : Nat) (q : Field) (mm : Field × Field) (e : Edge) :
    Field × Field :=
  let qmin1 := setK V e.c0 (fun k x => min x (q (V * e.c1 + k))) mm.1
  let qmin2 := setK V e.c1 (fun k x => min x (q (V * e.c0 + k))) qmin1
  let qmax1 := setK V e.c0 (fun k x => max x (q (V * e.c1 + k))) mm.2
  let qmax2 := setK V e.c1 (fun k x => max x (q (V * e.c0 + k))) qmax1
  (qmin2, qmax2)

/-- The cubic fade factor `sig` of `calc_limiters` (lines 129-137). -/
def sigVal (dMaxMin2 K3a : ℚ) : ℚ :=
  if dMaxMin2 ≤ K3a then 1
  else if dMaxMin2 < 2 * K3a then
    let y := dMaxMin2 / K3a - 1
    2 * y * y * y - 3 * y * y + 1
  else 0

/-- The raw limiter branch of `calc_limiters` (lines 139-146):
`limiter_func` of the relevant slope ratio, or 1 inside the `tol`
dead band. -/
def limRaw (lf : ℚ → ℚ) (dqg delta_max delta_min tol : ℚ) : ℚ :=
  if dqg > tol then lf (delta_max / dqg)
  else if dqg < -tol then lf (delta_min / dqg)
  else 1

/-- The limiter value computed by `calc_limiters` for endpoint `id` of
edge `e` and variable `k` (the body of the inner loop, lines 115-148):
the Venkatakrishnan-style `sig` blend of the user `limiter_func`. -/
def limVal (V : Nat) (lf sqrtFn : ℚ → ℚ) (m : Mesh)
    (q gx gy qmin qmax : Field) (e : Edge) (id k : Nat) : ℚ :=
  let dx := e.ex - m.cellsCentersX id
  let dy := e.ey - m.cellsCentersY id
  let area := m.cellsAreas id
  let tol : ℚ := 1e-15
  let dqg := gx (V * id + k) * dx + gy (V * id + k) * dy
  let delta_max := qmax (V * id + k) - q (V * id + k)
  let delta_min := qmin (V * id + k) - q (V * id + k)
  let Ka := 1 * sqrtFn area
  let K3a := Ka * Ka * Ka
  let dMaxMin2 := (delta_max - delta_min) * (delta_max - delta_min)
  let sig := sigVal dMaxMin2 K3a
  let lim := limRaw lf dqg delta_max delta_min tol
  sig + (1 - sig) * lim

/-- Phase 2 edge sweep of `calc_limiters`: for each endpoint `id` of the
edge that is an owned non-ghost cell, `limiters[V*id+k]` is lowered to
`min(limiters[V*id+k], lim)`. -/
def limEdge (V : Nat) (lf sqrtFn : ℚ → ℚ) (m : Mesh)
    (q gx gy qmin qmax : Field) (lims : Field) (e : Edge) : Field :=
  let upd : Nat → Field → Field := fun id l =>
    if id < m.nRealCells ∧ m.cellsIsGhost id = false then
      setK V id (fun k x => min x (limVal V lf sqrtFn m q gx gy qmin qmax e id k)) l
    else l
  upd e.c1 (upd e.c0 lims)

/-- `calc_limiters`: limiters are reset to one, `qmin`/`qmax` are seeded
from `q` and folded over all edges (phase 1), then the limiters are
min-accumulated over all edges (phase 2).  Returns the limiter field. -/
def calc_limiters (V : Nat) (lf sqrtFn : ℚ → ℚ) (m : Mesh)
    (q gx gy : Field) : Field :=
  let lims0 : Field := fun _ => 1
  let mm := m.edges.foldl (minmaxEdge V q) (q, q)
  m.edges.foldl (limEdge V lf sqrtFn m q gx gy mm.1 mm.2) lims0

/- ### calc_time_derivatives (explicit.cpp lines 158-222) -/

/-- The user flux kernel `calc_flux`, as invoked by the engine (line 193):
arguments are the two cell-state views, the four gradient views, the two
limiter views, the normal, the two center offsets `di`, `dj`, the area of
cell `i` and the edge length; it returns the edge flux component `f[k]`. -/
abbrev FluxFn :=
  (Nat → ℚ) → (Nat → ℚ) → (Nat → ℚ) → (Nat → ℚ) → (Nat → ℚ) → (Nat → ℚ) →
  (Nat → ℚ) → (Nat → ℚ) → ℚ × ℚ → ℚ × ℚ → ℚ × ℚ → ℚ → ℚ → Nat → ℚ

/-- The edge loop body of `calc_time_derivatives`: the edge flux `f` is
subtracted (times the edge length) from cell `i = edgesCells(e,0)` and
added to cell `j = edgesCells(e,1)`. -/
def qtEdge (V : Nat) (flux : FluxFn) (m : Mesh) (q gx gy lims : Field)
    (qt : Field) (e : Edge) : Field :=
  let n := (e.nx, e.ny)
  let di := (e.ex - m.cellsCentersX e.c0, e.ey - m.cellsCentersY e.c0)
  let dj := (e.ex - m.cellsCentersX e.c1, e.ey - m.cellsCentersY e.c1)
  let f : Nat → ℚ :=
    flux (off V e.c0 q) (off V e.c1 q) (off V e.c0 gx) (off V e.c0 gy)
      (off V e.c1 gx) (off V e.c1 gy) (off V e.c0 lims) (off V e.c1 lims)
      n di dj (m.cellsAreas e.c0) e.len
  let qt1 := setK V e.c0 (fun k x => x - f k * e.len) qt
  setK V e.c1 (fun k x => x + f k * e.len) qt1

/-- `calc_time_derivatives`: reset `qt` to zero, accumulate the flux of
every edge, then finalize cell by cell (lines 205-221): cells with index
at least `nRealCells` and ghost-flagged cells are forced to zero, the
remaining cells are multiplied by `1/area`.  The finalize loop writes
each flat index below `V*nCells` exactly once, so it is rendered
pointwise through `idx / V`. -/
def calc_time_derivatives (V : Nat) (flux : FluxFn) (m : Mesh)
    (q gx gy lims : Field) : Field :=
  let acc := m.edges.foldl (qtEdge V flux m q gx gy lims) (fun _ => 0)
  fun idx =>
    let c := idx / V
    if c < m.nCells then
      if m.nRealCells ≤ c then 0
      else if m.cellsIsGhost c then 0
      else acc idx * (1 / m.cellsAreas c)
    else acc idx

/- ### update_cells (explicit.cpp lines 226-236) -/

/-- `update_cells(q, ql, qt, dt, v)`: the written field, pointwise
`ql[i] + qt[i] * dt[i] * v`. -/
def update_cells (ql qt dt : Field) (v : ℚ) : Field :=
  fun i => ql i + qt i * dt i * v

/- ### Solver flags (spec §6; instantiated in each example's main.cpp) -/

/-- The user solver toggles read by the engine. -/
structure SolverFlags where
  do_calc_gradients : Bool
  do_calc_limiters : Bool
  global_dt : Bool

/- ### complete_calc_qt (explicit.cpp lines 460-488), single rank -/

/-- `complete_calc_qt` on a single rank (`pool.size == 1`, so the
`update_comms` calls are skipped): optionally recompute gradients and
limiters, then compute the time derivative.  Returns
`(qt, gx, gy, limiters)` as left in the caller's buffers. -/
def complete_calc_qt (V : Nat) (flux : FluxFn) (lf sqrtFn : ℚ → ℚ)
    (flags : SolverFlags) (m : Mesh) (q gx gy lims : Field) :
    Field × Field × Field × Field :=
  let gg := if flags.do_calc_gradients then calc_gradients V m q else (gx, gy)
  let lims1 :=
    if flags.do_calc_limiters then calc_limiters V lf sqrtFn m q gg.1 gg.2
    else lims
  (calc_time_derivatives V flux m q gg.1 gg.2 lims1, gg.1, gg.2, lims1)

/- ### Runge-Kutta stage loop (run, explicit.cpp lines 560-570), single rank -/

/-- One RK stage (run lines 563-568 on a single rank): compute `qt` from
the current `qk`, then `qk := q + qt * dt * a`.  The state carries
`(qk, qt, gx, gy, limiters)` because those buffers persist across
stages. -/
def rk_stage (V : Nat) (flux : FluxFn) (lf sqrtFn : ℚ → ℚ)
    (flags : SolverFlags) (m : Mesh) (q dt : Field)
    (st : Field × Field × Field × Field × Field) (a : ℚ) :
    Field × Field × Field × Field × Field :=
  let res := complete_calc_qt V flux lf sqrtFn flags m st.1 st.2.2.1 st.2.2.2.1 st.2.2.2.2
  (update_cells q res.1 dt a, res.1, res.2.1, res.2.2.1, res.2.2.2)

/-- The full stage loop of one time step: `qk` starts as `q` and is
rebuilt by every stage coefficient in `alpha`. -/
def rk_stages (V : Nat) (flux : FluxFn) (lf sqrtFn : ℚ → ℚ)
    (flags : SolverFlags) (m : Mesh) (q dt : Field)
    (qt gx gy lims : Field) (alpha : List ℚ) :
    Field × Field × Field × Field × Field :=
  alpha.foldl (rk_stage V flux lf sqrtFn flags m q dt) (q, qt, gx, gy, lims)

/- ### update_bounds (explicit.cpp lines 238-254) -/

/-- One boundary-edge application: the kernel reads the owned-cell view
`&q[vars*edgesCells(e,0)]` and the edge normal, and its `vars` outputs
are written to the ghost-cell block `&q[vars*edgesCells(e,1)]`. -/
def apply_bound (V : Nat) (q : Field) (b : BoundaryBinding) : Field :=
  let n := (b.edge.nx, b.edge.ny)
  let out := b.kernel (off V b.edge.c0 q) n
  setK V b.edge.c1 (fun k _ => out k) q

/-- `update_bounds`: apply every boundary binding in order. -/
def update_bounds (V : Nat) (bs : List BoundaryBinding) (q : Field) : Field :=
  bs.foldl (apply_bound V) q

/- ### update_comms (explicit.cpp lines 257-312) -/

/-- The MPI calls `update_comms` can issue, abstracted to the operation
kind, the peer rank and the element count.  `wait r` stands for
`MPI_Wait` on request `r` (available to the code but never used by it);
`request_free r` stands for `MPI_Request_free` on request `r`. -/
inductive MpiOp where
  | isend (dest : Nat) (count : Nat)
  | recv (src : Nat) (count : Nat)
  | wait (req : Nat)
  | request_free (req : Nat)
deriving DecidableEq

/-- Recognizer for `MPI_Wait` trace entries. -/
def MpiOp.isWait : MpiOp → Bool
  | .wait _ => true
  | _ => false

/-- Recognizer for `MPI_Isend` trace entries. -/
def MpiOp.isIsend : MpiOp → Bool
  | .isend _ _ => true
  | _ => false

/-- Recognizer for `MPI_Request_free` trace entries. -/
def MpiOp.isRequestFree : MpiOp → Bool
  | .request_free _ => true
  | _ => false

/-- One halo-exchange channel (`m.comms[..]` of the spec's mesh model,
§3): peer rank, owned-cell send indices, ghost-cell receive indices, and
the contents of the receive buffer, i.e. the data the peer rank sent
(external to this rank, hence a parameter of the model). -/
structure Comm where
  out_rank : Nat
  snd_indices : List Nat
  rec_indices : List Nat
  rec_q : Nat → ℚ

/-- Unpacking one received buffer (lines 299-305): the `iter`-th receive
index gets the `vars` values at offset `vars*iter` of the buffer. -/
def unpack_comm (V : Nat) (c : Comm) (q : Field) : Field :=
  c.rec_indices.enum.foldl
    (fun qq p => setK V p.2 (fun j _ => c.rec_q (V * p.1 + j)) qq) q

/-- `update_comms` on one rank, together with the ordered trace of MPI
calls it issues: a non-blocking send per channel, then a blocking receive
and unpack per channel, then `MPI_Request_free` on every send request
(lines 308-311).  The function never calls `MPI_Wait`. -/
def update_comms (V : Nat) (comms : List Comm) (q : Field) :
    Field × List MpiOp :=
  let sends := comms.map fun c => MpiOp.isend c.out_rank (V * c.snd_indices.length)
  let q2 := comms.foldl (fun qq c => unpack_comm V c qq) q
  let recvs := comms.map fun c => MpiOp.recv c.out_rank (V * c.rec_indices.length)
  let frees := (List.range comms.length).map fun i => MpiOp.request_free i
  (q2, sends ++ recvs ++ frees)

/- ### min_dt (explicit.cpp lines 390-399) -/

/-- `min_dt` on one rank's dt vector: fold `min` over every entry
starting from `dt[0]`, then overwrite every entry with the minimum. -/
def min_dt (dt : List ℚ) : List ℚ :=
  let m := dt.foldl min (dt.headD 0)
  dt.map fun _ => m

/- ### validate_dt (explicit.cpp lines 402-456), all ranks -/

/-- `validate_dt` modelled as a pure function over every rank's dt
vector (`dts[r]` is rank `r`'s vector).  Rank 0 receives `dts[r][0]`
from each rank `r = 1..size-1` in order into the single scalar `dti`
(each receive overwriting the previous one), then sets
`dt[0] = min(dt[0], dti)` once, after the loop — so only the last
sender's value takes part in the minimum.  The winner `dt[0]` is then
sent to every other rank; each non-zero rank stores it in `dt[0]` and
copies `dt[0]` over its remaining entries.  Rank 0 performs no such
copy. -/
def validate_dt (dts : List (List ℚ)) : List (List ℚ) :=
  match dts with
  | [] => []
  | dt0 :: rest =>
    let dti := (rest.getLastD dt0).headD 0
    let newHead := min (dt0.headD 0) dti
    let dt0new := dt0.set 0 newHead
    dt0new :: rest.map fun dtr => dtr.map fun _ => newHead

/- ### calc_residuals (explicit.cpp lines 316-387), all ranks -/

/-- The per-rank data `calc_residuals` reads: the rank's `qt` field and
its mesh. -/
structure RankData where
  qt : Field
  m : Mesh

/-- The local residual accumulation (lines 322-331):
`R[k] = Σ over owned non-ghost cells of qt[V*i+k]^2 * A[i]`,
as the loop computes it. -/
def residual_local (V : Nat) (r : RankData) (k : Nat) : ℚ :=
  (List.range r.m.nRealCells).foldl
    (fun acc i =>
      if r.m.cellsIsGhost i then acc
      else acc + r.qt (V * i + k) * r.qt (V * i + k) * r.m.cellsAreas i) 0

/-- `calc_residuals` modelled as a pure function over every rank's data:
rank 0 receives and adds every other rank's local partial in order, takes
the square root componentwise, and sends the result back; every rank's
final `R` is that broadcast value (the square roots the non-zero ranks
took of their own partials are overwritten by the receive).  The result
is the list of every rank's final `R`. -/
def calc_residuals (V : Nat) (sqrtFn : ℚ → ℚ) (ranks : List RankData) :
    List (Nat → ℚ) :=
  match ranks with
  | [] => []
  | r0 :: rest =>
    let Rtot := rest.foldl
      (fun R r => fun j => R j + residual_local V r j) (residual_local V r0)
    let Rb : Nat → ℚ := fun k => sqrtFn (Rtot k)
    ranks.map fun _ => Rb

/- ### The driver loop `run` (explicit.cpp lines 492-596), single rank -/

/-- The solver options the step loop reads. -/
structure SolverOptions where
  max_step : Nat
  max_time : ℚ
  print_interval : Nat
  tolerance : ℚ

/-- The driver state at the top of the `while (running)` loop: the
persistent buffers and counters declared before the loop. -/
structure RunState where
  q : Field
  qt : Field
  gx : Field
  gy : Field
  limiters : Field
  step : Nat
  time : ℚ
  R : Nat → ℚ
  R0 : Nat → ℚ

/-- The convergence check at the top of the loop (lines 536-544):
`Rmax` starts at `0.0` and is folded with `max(R[i], Rmax)` over the
variables when `step > 0`, and is forced to `1.0` at step 0; the loop
exits iff `step >= max_step`, or `time >= max_time`, or
`Rmax < tolerance`. -/
def exit_cond (V : Nat) (opt : SolverOptions) (s : RunState) : Bool :=
  let Rmax : ℚ :=
    if s.step > 0 then (List.range V).foldl (fun mx i => max (s.R i) mx) 0 else 1
  decide (opt.max_step ≤ s.step) || decide (opt.max_time ≤ s.time) ||
    decide (Rmax < opt.tolerance)

/-- `min_dt` acting on the flat dt field of size `n = vars * nCells`
(the driver passes the whole dt vector). -/
def min_dt_field (n : Nat) (dt : Field) : Field :=
  let mv := (List.range n).foldl (fun acc i => min acc (dt i)) (dt 0)
  fun i => if i < n then mv else dt i

/-- One iteration of the driver loop on a single rank (lines 547-593,
with the `pool.size > 1` communication branches skipped and
`validate_dt` not called): apply boundary conditions, compute dt (user
rule `calcDt`), reduce it if `global_dt`, run the RK stages, update the
residuals per the step-0 / print-interval rules, and advance `step` and
(if `global_dt`) `time` by `dt[0]`. -/
def run_body (V : Nat) (flux : FluxFn) (lf sqrtFn : ℚ → ℚ)
    (flags : SolverFlags) (calcDt : Field → Mesh → Field) (m : Mesh)
    (opt : SolverOptions) (alpha : List ℚ) (s : RunState) : RunState :=
  let q1 := update_bounds V m.bounds s.q
  let dt0 := calcDt q1 m
  let dt1 := if flags.global_dt then min_dt_field (V * m.nCells) dt0 else dt0
  let st := rk_stages V flux lf sqrtFn flags m q1 dt1 s.qt s.gx s.gy s.limiters alpha
  let qt2 := st.2.1
  let Rres : Nat → ℚ := fun k => sqrtFn (residual_local V ⟨qt2, m⟩ k)
  let R0new := if s.step = 0 then Rres else s.R0
  let Rnew :=
    if s.step = 0 then Rres
    else if s.step % opt.print_interval = 0 ∨ opt.tolerance > 1.01e-16 then
      fun k => Rres k / s.R0 k
    else s.R
  { q := st.1, qt := qt2, gx := st.2.2.1, gy := st.2.2.2.1,
    limiters := st.2.2.2.2, step := s.step + 1,
    time := s.time + (if flags.global_dt then dt1 0 else 0),
    R := Rnew, R0 := R0new }

/-- The `while (running)` loop of `run`: the body runs as long as the
top-of-loop convergence check fails.  Termination is secured by
`step >= max_step`, which every iteration brings closer since the body
increments `step`. -/
def run_loop (V : Nat) (flux : FluxFn) (lf sqrtFn : ℚ → ℚ)
    (flags : SolverFlags) (calcDt : Field → Mesh → Field) (m : Mesh)
    (opt : SolverOptions) (alpha : List ℚ) (s : RunState) : RunState :=
  if exit_cond V opt s then s
  else run_loop V flux lf sqrtFn flags calcDt m opt alpha
    (run_body V flux lf sqrtFn flags calcDt m opt alpha s)
termination_by opt.max_step - s.step
decreasing_by
  rename_i h
  have hb : (run_body V flux lf sqrtFn flags calcDt m opt alpha s).step
      = s.step + 1 := rfl
  have hlt : s.step < opt.max_step := by
    by_contra hge
    apply h
    simp only [exit_cond, Bool.or_eq_true, decide_eq_true_eq]
    left; left; omega
  omega

/- ### Conserved total (spec §8.1) -/

/-- The conserved total of variable `k`: `Σ over cells c of A[c] * f[V*c+k]`. -/
def sumA (V : Nat) (m : Mesh) (k : Nat) (f : Field) : ℚ :=
  ∑ c in Finset.range m.nCells, m.cellsAreas c * f (V * c + k)

/- ### Concrete inputs used to instantiate the theorems -/

/-- A flux kernel that always returns one, for instantiations. -/
def constFlux : FluxFn := fun _ _ _ _ _ _ _ _ _ _ _ _ _ => fun _ => 1

/-- A two-cell mesh with one owned cell, one index-ghost cell and the
single edge between them. -/
def demoMesh : Mesh where
  nRealCells := 1
  nCells := 2
  cellsAreas := fun _ => 1
  cellsCentersX := fun _ => 0
  cellsCentersY := fun _ => 0
  cellsIsGhost := fun _ => false
  edges := [⟨0, 1, 1, 0, 1, 1/2, 0⟩]
  bounds := []

/-- A two-cell mesh whose second cell has index below `nRealCells` but
carries the `is_ghost` flag. -/
def ghostFlagMesh : Mesh where
  nRealCells := 2
  nCells := 2
  cellsAreas := fun _ => 1
  cellsCentersX := fun _ => 0
  cellsCentersY := fun _ => 0
  cellsIsGhost := fun c => c == 1
  edges := [⟨0, 1, 1, 0, 1, 1/2, 0⟩]
  bounds := []

/-- A closed two-cell mesh: both cells are owned and non-ghost, and the
single edge joins them. -/
def closedMesh : Mesh where
  nRealCells := 2
  nCells := 2
  cellsAreas := fun _ => 1
  cellsCentersX := fun _ => 0
  cellsCentersY := fun _ => 0
  cellsIsGhost := fun _ => false
  edges := [⟨0, 1, 1, 0, 1, 1/2, 0⟩]
  bounds := []

/-- A state field putting the value 2 in variable 0 of cell 0. -/
def demoQ : Field := fun idx => if idx = 0 then 2 else 0

/-- A pure boundary kernel writing `q_owned[0] + 1` in every ghost
component. -/
def demoKernel : (Nat → ℚ) → ℚ × ℚ → Nat → ℚ := fun qown _ _ => qown 0 + 1

/-- `demoMesh` with its edge bound to `demoKernel` as a boundary edge. -/
def boundsMesh : Mesh where
  nRealCells := 1
  nCells := 2
  cellsAreas := fun _ => 1
  cellsCentersX := fun _ => 0
  cellsCentersY := fun _ => 0
  cellsIsGhost := fun _ => false
  edges := [⟨0, 1, 1, 0, 1, 1/2, 0⟩]
  bounds := [⟨⟨0, 1, 1, 0, 1, 1/2, 0⟩, demoKernel⟩]

/-- A trivial user time-step rule: dt = 1 everywhere. -/
def demoCalcDt : Field → Mesh → Field := fun _ _ => fun _ => 1

/-- A driver state at step 0 with unit residuals. -/
def demoState : RunState where
  q := fun _ => 0
  qt := fun _ => 0
  gx := fun _ => 0
  gy := fun _ => 0
  limiters := fun _ => 0
  step := 0
  time := 0
  R := fun _ => 1
  R0 := fun _ => 1

/-- Concrete solver options. -/
def demoOpt : SolverOptions where
  max_step := 2
  max_time := 1
  print_interval := 1
  tolerance := 0

/- ### Generic fold invariants -/

theorem foldl_preserve {α β : Type} {P : α → Prop} {f : α → β → α} :
    ∀ {l : List β} {a : α}, P a → (∀ x b, b ∈ l → P x → P (f x b)) →
      P (l.foldl f a) := by
  intro l
  induction l with
  | nil => intro a h0 _; exact h0
  | cons b t ih =>
    intro a h0 hstep
    exact ih (hstep a b (List.mem_cons_self b t) h0)
      (fun x c hc hx => hstep x c (List.mem_cons_of_mem b hc) hx)

/- ### Ghost cells in calc_time_derivatives (C3) -/

theorem ctd_ghost_zero (V : Nat) (flux : FluxFn) (m : Mesh)
    (q gx gy lims : Field) (c k : Nat) (hc : c < m.nCells)
    (hg : m.nRealCells ≤ c ∨ m.cellsIsGhost c = true) (hk : k < V) :
    calc_time_derivatives V flux m q gx gy lims (V * c + k) = 0 := by
  simp only [calc_time_derivatives, flat_div hk]
  rw [if_pos hc]
  rcases hg with h | h
  · rw [if_pos h]
  · by_cases h2 : m.nRealCells ≤ c
    · rw [if_pos h2]
    · rw [if_neg h2, if_pos h]

/-- Claim C3: after `calc_time_derivatives` (and hence after every
single-rank `complete_calc_qt`), `qt[V*c+k] = 0` for every variable
`k < V` and every cell `c < nCells` with `c ≥ nRealCells` or with the
`is_ghost` flag set. -/
theorem qt_zero_on_ghost_cells (V : Nat) (flux : FluxFn) (lf sqrtFn : ℚ → ℚ)
    (flags : SolverFlags) (m : Mesh) (q gx gy lims : Field) (c k : Nat)
    (hc : c < m.nCells) (hg : m.nRealCells ≤ c ∨ m.cellsIsGhost c = true)
    (hk : k < V) :
    calc_time_derivatives V flux m q gx gy lims (V * c + k) = 0
    ∧ (complete_calc_qt V flux lf sqrtFn flags m q gx gy lims).1 (V * c + k) = 0 := by
  constructor
  · exact ctd_ghost_zero V flux m q gx gy lims c k hc hg hk
  · simp only [complete_calc_qt]
    exact ctd_ghost_zero V flux m q _ _ _ c k hc hg hk

theorem qt_zero_on_ghost_cells_witness :
    1 < demoMesh.nCells
    ∧ (demoMesh.nRealCells ≤ 1 ∨ demoMesh.cellsIsGhost 1 = true)
    ∧ 0 < 1
    ∧ (calc_time_derivatives 1 constFlux demoMesh demoQ demoQ demoQ demoQ
        (1 * 1 + 0) = 0
      ∧ (complete_calc_qt 1 constFlux id id ⟨true, true, true⟩ demoMesh
          demoQ demoQ demoQ demoQ).1 (1 * 1 + 0) = 0) :=
  ⟨by decide, by decide, by decide,
    qt_zero_on_ghost_cells 1 constFlux id id ⟨true, true, true⟩ demoMesh
      demoQ demoQ demoQ demoQ 1 0 (by decide) (by decide) (by decide)⟩

/- ### Limiters of non-owned cells (C10) -/

/-- Claim C10: after `calc_limiters`, `limiters[V*c+k] = 1` for every
cell `c` that is not owned-and-non-ghost (index at least `nRealCells`,
or flagged `is_ghost`) and every variable `k < V`: the limiter is
initialized to one everywhere and the minimizing update is guarded to
owned non-ghost cells. -/
theorem limiters_one_on_ghost_cells (V : Nat) (lf sqrtFn : ℚ → ℚ) (m : Mesh)
    (q gx gy : Field) (c k : Nat)
    (hg : m.nRealCells ≤ c ∨ m.cellsIsGhost c = true) (hk : k < V) :
    calc_limiters V lf sqrtFn m q gx gy (V * c + k) = 1 := by
  simp only [calc_limiters]
  apply foldl_preserve (P := fun lims : Field => lims (V * c + k) = 1) rfl
  intro lims e _ hx
  simp only [limEdge]
  have hupd : ∀ (id : Nat) (l : Field)
      (f : Nat → ℚ → ℚ), l (V * c + k) = 1 →
      (if id < m.nRealCells ∧ m.cellsIsGhost id = false then setK V id f l
       else l) (V * c + k) = 1 := by
    intro id l f hl
    by_cases hguard : id < m.nRealCells ∧ m.cellsIsGhost id = false
    · rw [if_pos hguard]
      have hne : c ≠ id := by
        rcases hg with h | h
        · omega
        · intro heq; rw [heq, hguard.2] at h; exact Bool.false_ne_true h
      rw [setK_other hk hne, hl]
    · rw [if_neg hguard]; exact hl
  exact hupd e.c1 _ _ (hupd e.c0 lims _ hx)

theorem limiters_one_on_ghost_cells_witness :
    (demoMesh.nRealCells ≤ 1 ∨ demoMesh.cellsIsGhost 1 = true)
    ∧ 0 < 1
    ∧ calc_limiters 1 limiter_func id demoMesh demoQ demoQ demoQ
        (1 * 1 + 0) = 1 :=
  ⟨by decide, by decide,
    limiters_one_on_ghost_cells 1 limiter_func id demoMesh demoQ demoQ demoQ
      1 0 (by decide) (by decide)⟩

/- ### Ghost-cell gradients (C5) -/

/-- Claim C5 is false as stated: on `ghostFlagMesh`, cell 1 has index
below `nRealCells` but carries the `is_ghost` flag, and after
`calc_gradients` its stored x-gradient is `-1`, not zero — the zeroing
loop of `calc_gradients` only covers indices at or above
`nRealCells`. -/
theorem calc_gradients_ghost_flag_counterexample :
    ghostFlagMesh.cellsIsGhost 1 = true
    ∧ 1 < ghostFlagMesh.nRealCells
    ∧ (calc_gradients 1 ghostFlagMesh demoQ).1 (1 * 1 + 0) = -1
    ∧ ¬ ((calc_gradients 1 ghostFlagMesh demoQ).1 (1 * 1 + 0) = 0) := by
  have hval : (calc_gradients 1 ghostFlagMesh demoQ).1 (1 * 1 + 0) = -1 := by
    norm_num [calc_gradients, gradEdge, setK, demoQ, ghostFlagMesh]
  refine ⟨by decide, by decide, hval, by rw [hval]; norm_num⟩

/-- Claim C5 (amended): after `calc_gradients` returns, the stored
gradients `gx[V*c+k]` and `gy[V*c+k]` are zero for every cell `c` with
`nRealCells ≤ c < nCells` and every variable `k < V`; cells flagged
`is_ghost` whose index is below `nRealCells` are not zeroed and keep
their accumulated, area-normalized values. -/
theorem calc_gradients_zero_above_nRealCells (V : Nat) (m : Mesh) (q : Field)
    (c k : Nat) (h1 : m.nRealCells ≤ c) (h2 : c < m.nCells) (hk : k < V) :
    (calc_gradients V m q).1 (V * c + k) = 0
    ∧ (calc_gradients V m q).2 (V * c + k) = 0 := by
  have hcond : m.nRealCells ≤ (V * c + k) / V ∧ (V * c + k) / V < m.nCells := by
    rw [flat_div hk]; exact ⟨h1, h2⟩
  constructor <;> simp only [calc_gradients, if_pos hcond]

theorem calc_gradients_zero_above_nRealCells_witness :
    demoMesh.nRealCells ≤ 1 ∧ 1 < demoMesh.nCells ∧ 0 < 1
    ∧ ((calc_gradients 1 demoMesh demoQ).1 (1 * 1 + 0) = 0
       ∧ (calc_gradients 1 demoMesh demoQ).2 (1 * 1 + 0) = 0) :=
  ⟨by decide, by decide, by decide,
    calc_gradients_zero_above_nRealCells 1 demoMesh demoQ 1 0
      (by decide) (by decide) (by decide)⟩

/- ### Global dt reduction (C1) -/

/-- Claim C1 fails on the code: with two ranks holding dt fields
`[3,3]` and `[1,1]`, `min_dt` leaves them unchanged and `validate_dt`
produces `[1,3]` on rank 0 — entry 1 still holds rank 0's local minimum
3, not the winning scalar 1, because rank 0 never copies the reduced
`dt[0]` over its remaining entries.  With three ranks `[5]`,`[1]`,`[3]`
the chosen scalar is 3, which is not ≤ rank 1's pre-reduction value 1,
because rank 0 applies `min` only to the last received value.  This
contradicts the intended guarantee (spec §4.6 and §8.6) that after
`validate_dt` every entry of dt on every rank equals one scalar that is
≤ every pre-reduction value. -/
theorem validate_dt_bug :
    validate_dt (([[3, 3], [1, 1]] : List (List ℚ)).map min_dt)
      = [[1, 3], [1, 1]]
    ∧ ¬ ((1 : ℚ) = 3)
    ∧ validate_dt (([[5], [1], [3]] : List (List ℚ)).map min_dt)
      = [[3], [3], [3]]
    ∧ ¬ ((3 : ℚ) ≤ 1) := by
  refine ⟨by decide, by decide, by decide, by decide⟩

/- ### update_comms send completion (C9) -/

theorem filter_map_all_true {α β : Type} (p : β → Bool) (f : α → β)
    (l : List α) (h : ∀ a, p (f a) = true) :
    ((l.map f).filter p).length = l.length := by
  induction l with
  | nil => rfl
  | cons x t ih => simp [List.filter_cons, h x, ih]

theorem filter_map_all_false {α β : Type} (p : β → Bool) (f : α → β)
    (l : List α) (h : ∀ a, p (f a) = false) :
    (l.map f).filter p = [] := by
  induction l with
  | nil => rfl
  | cons x t ih => simp [List.filter_cons, h x, ih]

/-- Claim C9 fails on the code: for every channel configuration and
field, the MPI trace of `update_comms` contains no `MPI_Wait` at all;
instead every one of the posted non-blocking sends is handed to
`MPI_Request_free`, which releases the request without completing the
send, so the function does not wait for its sends before returning. -/
theorem update_comms_frees_without_wait (V : Nat) (comms : List Comm)
    (q : Field) :
    ((update_comms V comms q).2.filter MpiOp.isWait) = []
    ∧ ((update_comms V comms q).2.filter MpiOp.isIsend).length = comms.length
    ∧ ((update_comms V comms q).2.filter MpiOp.isRequestFree).length
        = comms.length := by
  simp only [update_comms, List.filter_append, List.length_append]
  refine ⟨?_, ?_, ?_⟩
  · rw [filter_map_all_false _ _ _ (fun _ => rfl),
      filter_map_all_false _ _ _ (fun _ => rfl),
      filter_map_all_false _ _ _ (fun _ => rfl)]
    rfl
  · rw [filter_map_all_true _ _ _ (fun _ => rfl),
      filter_map_all_false _ _ _ (fun _ => rfl),
      filter_map_all_false _ _ _ (fun _ => rfl)]
    simp
  · rw [filter_map_all_false _ _ _ (fun _ => rfl),
      filter_map_all_false _ _ _ (fun _ => rfl),
      filter_map_all_true _ _ _ (fun _ => rfl)]
    simp

/- ### Residual reduction (C4) -/

theorem foldl_range_sum (g : Nat → ℚ) (p : Nat → Bool) :
    ∀ (n : Nat) (a : ℚ),
      (List.range n).foldl (fun acc i => if p i then acc else acc + g i) a
        = a + ∑ i in Finset.range n, (if p i then 0 else g i) := by
  intro n
  induction n with
  | zero => intro a; simp
  | succ n ih =>
    intro a
    rw [List.range_succ, List.foldl_append, ih, Finset.sum_range_succ]
    by_cases hp : p n
    · simp [hp]
    · simp [hp]; ring

theorem residual_local_eq (V : Nat) (r : RankData) (k : Nat) :
    residual_local V r k
      = ∑ i in Finset.range r.m.nRealCells,
          (if r.m.cellsIsGhost i then 0
           else r.qt (V * i + k) * r.qt (V * i + k) * r.m.cellsAreas i) := by
  rw [residual_local, foldl_range_sum, zero_add]

theorem foldl_residual_add (V k : Nat) :
    ∀ (l : List RankData) (f0 : Nat → ℚ),
      (l.foldl (fun R r => fun j => R j + residual_local V r j) f0) k
        = f0 k + (l.map fun rd => residual_local V rd k).sum := by
  intro l
  induction l with
  | nil => intro f0; simp
  | cons r0 rest ih =>
    intro f0
    rw [List.foldl_cons, ih, List.map_cons, List.sum_cons]
    ring

theorem getD_map_const {α β : Type} (b d : β) :
    ∀ (l : List α) (r : Nat), r < l.length →
      (l.map fun _ => b).getD r d = b := by
  intro l
  induction l with
  | nil => intro r hr; simp at hr
  | cons x t ih =>
    intro r hr
    cases r with
    | zero => rfl
    | succ n =>
      simp only [List.map_cons, List.getD_cons_succ]
      exact ih n (by simpa using hr)

/-- Claim C4: after `calc_residuals` returns, `R[k]` on every rank
equals the square root of the sum, over all owned non-ghost cells of
all ranks, of `qt[V*c+k]^2 * A[c]` — the rank-0 gather, sum, square
root and re-broadcast modelled as a pure function of all ranks'
data. -/
theorem calc_residuals_global (V : Nat) (sqrtFn : ℚ → ℚ)
    (ranks : List RankData) (r k : Nat) (hr : r < ranks.length) (hk : k < V) :
    (calc_residuals V sqrtFn ranks).getD r (fun _ => 0) k
      = sqrtFn ((ranks.map fun rd =>
          ∑ i in Finset.range rd.m.nRealCells,
            (if rd.m.cellsIsGhost i then 0
             else rd.qt (V * i + k) * rd.qt (V * i + k)
                    * rd.m.cellsAreas i)).sum) := by
  cases ranks with
  | nil => simp at hr
  | cons r0 rest =>
    simp only [calc_residuals]
    rw [getD_map_const _ _ _ r (by simpa using hr)]
    rw [foldl_residual_add, List.map_cons, List.sum_cons]
    simp only [residual_local_eq]

/- ### Limiter range (C6) -/

theorem limiter_func_bounds (y : ℚ) (hy : 0 ≤ y) :
    0 ≤ limiter_func y ∧ limiter_func y ≤ 1 := by
  simp only [limiter_func]
  by_cases h : y ≥ (2 : ℚ)
  · rw [if_pos h]; norm_num
  · rw [if_neg h]
    push_neg at h
    constructor <;> nlinarith [sq_nonneg (y - 2), sq_nonneg y]

theorem sigVal_bounds (d2 K3a : ℚ) : 0 ≤ sigVal d2 K3a ∧ sigVal d2 K3a ≤ 1 := by
  simp only [sigVal]
  by_cases h1 : d2 ≤ K3a
  · rw [if_pos h1]; norm_num
  · rw [if_neg h1]
    push_neg at h1
    by_cases h2 : d2 < 2 * K3a
    · rw [if_pos h2]
      have hK : 0 < K3a := by linarith
      have hy1 : 0 < d2 / K3a - 1 := by
        have : 1 < d2 / K3a := (one_lt_div hK).mpr h1
        linarith
      have hy2 : d2 / K3a - 1 < 1 := by
        have : d2 / K3a < 2 := (div_lt_iff hK).mpr (by linarith)
        linarith
      constructor <;> nlinarith [sq_nonneg (d2 / K3a - 2), sq_nonneg (d2 / K3a - 1)]
    · rw [if_neg h2]; norm_num

theorem limRaw_bounds (lf : ℚ → ℚ)
    (hlf : ∀ y, 0 ≤ y → 0 ≤ lf y ∧ lf y ≤ 1)
    (dqg delta_max delta_min tol : ℚ) (htol : 0 < tol)
    (hdmax : 0 ≤ delta_max) (hdmin : delta_min ≤ 0) :
    0 ≤ limRaw lf dqg delta_max delta_min tol
    ∧ limRaw lf dqg delta_max delta_min tol ≤ 1 := by
  simp only [limRaw]
  by_cases h1 : dqg > tol
  · rw [if_pos h1]
    exact hlf _ (div_nonneg hdmax (by linarith))
  · rw [if_neg h1]
    by_cases h2 : dqg < -tol
    · rw [if_pos h2]
      exact hlf _ (div_nonneg_of_nonpos hdmin (by linarith))
    · rw [if_neg h2]; norm_num

theorem blend_bounds (sig lim : ℚ) (h1 : 0 ≤ sig) (h2 : sig ≤ 1)
    (h3 : 0 ≤ lim) (h4 : lim ≤ 1) :
    0 ≤ sig + (1 - sig) * lim ∧ sig + (1 - sig) * lim ≤ 1 := by
  constructor <;> nlinarith

theorem limVal_bounds (V : Nat) (lf sqrtFn : ℚ → ℚ) (m : Mesh)
    (q gx gy qmin qmax : Field) (e : Edge) (id k : Nat)
    (hlf : ∀ y, 0 ≤ y → 0 ≤ lf y ∧ lf y ≤ 1)
    (hmin : qmin (V * id + k) ≤ q (V * id + k))
    (hmax : q (V * id + k) ≤ qmax (V * id + k)) :
    0 ≤ limVal V lf sqrtFn m q gx gy qmin qmax e id k
    ∧ limVal V lf sqrtFn m q gx gy qmin qmax e id k ≤ 1 := by
  simp only [limVal]
  have hsig := sigVal_bounds
    ((qmax (V * id + k) - q (V * id + k) - (qmin (V * id + k) - q (V * id + k)))
      * (qmax (V * id + k) - q (V * id + k) - (qmin (V * id + k) - q (V * id + k))))
    (1 * sqrtFn (m.cellsAreas id) * (1 * sqrtFn (m.cellsAreas id))
      * (1 * sqrtFn (m.cellsAreas id)))
  have hlim := limRaw_bounds lf hlf
    (gx (V * id + k) * (e.ex - m.cellsCentersX id)
      + gy (V * id + k) * (e.ey - m.cellsCentersY id))
    (qmax (V * id + k) - q (V * id + k))
    (qmin (V * id + k) - q (V * id + k))
    1e-15 (by norm_num) (by linarith) (by linarith)
  exact blend_bounds _ _ hsig.1 hsig.2 hlim.1 hlim.2

/-- After phase 1 of `calc_limiters`, `qmin ≤ q ≤ qmax` pointwise: the
accumulators start at `q` and are only lowered and raised. -/
theorem minmax_bounds (V : Nat) (q : Field) (edges : List Edge) :
    (∀ idx, (edges.foldl (minmaxEdge V q) (q, q)).1 idx ≤ q idx)
    ∧ (∀ idx, q idx ≤ (edges.foldl (minmaxEdge V q) (q, q)).2 idx) := by
  apply foldl_preserve
    (P := fun mm : Field × Field =>
      (∀ idx, mm.1 idx ≤ q idx) ∧ (∀ idx, q idx ≤ mm.2 idx))
  · exact ⟨fun _ => le_refl _, fun _ => le_refl _⟩
  · intro mm e _ hmm
    have hminstep : ∀ (b : Nat) (v : Nat → ℚ) (f : Field),
        (∀ idx, f idx ≤ q idx) →
        ∀ idx, setK V b (fun k x => min x (v k)) f idx ≤ q idx := by
      intro b v f hf idx
      simp only [setK]
      split_ifs with h
      · exact le_trans (min_le_left _ _) (hf idx)
      · exact hf idx
    have hmaxstep : ∀ (b : Nat) (v : Nat → ℚ) (f : Field),
        (∀ idx, q idx ≤ f idx) →
        ∀ idx, q idx ≤ setK V b (fun k x => max x (v k)) f idx := by
      intro b v f hf idx
      simp only [setK]
      split_ifs with h
      · exact le_trans (hf idx) (le_max_left _ _)
      · exact hf idx
    exact ⟨hminstep _ _ _ (hminstep _ _ _ hmm.1), hmaxstep _ _ _ (hmaxstep _ _ _ hmm.2)⟩

/-- Claim C6: after `calc_limiters` with the Michalak `limiter_func` of
the forward-step example, `0 ≤ limiters[V*c+k] ≤ 1` for every owned
non-ghost cell `c` and variable `k < V` (the ratio fed to
`limiter_func` is nonnegative because `qmin ≤ q ≤ qmax` by
construction, and the `sig` blend keeps the result in `[0,1]`). -/
theorem calc_limiters_range (V : Nat) (sqrtFn : ℚ → ℚ) (m : Mesh)
    (q gx gy : Field) (c k : Nat) (hc : c < m.nRealCells)
    (hg : m.cellsIsGhost c = false) (hk : k < V) :
    0 ≤ calc_limiters V limiter_func sqrtFn m q gx gy (V * c + k)
    ∧ calc_limiters V limiter_func sqrtFn m q gx gy (V * c + k) ≤ 1 := by
  simp only [calc_limiters]
  have hmm := minmax_bounds V q m.edges
  have hall : ∀ idx,
      0 ≤ (m.edges.foldl
        (limEdge V limiter_func sqrtFn m q gx gy
          (m.edges.foldl (minmaxEdge V q) (q, q)).1
          (m.edges.foldl (minmaxEdge V q) (q, q)).2) (fun _ => 1)) idx
      ∧ (m.edges.foldl
        (limEdge V limiter_func sqrtFn m q gx gy
          (m.edges.foldl (minmaxEdge V q) (q, q)).1
          (m.edges.foldl (minmaxEdge V q) (q, q)).2) (fun _ => 1)) idx ≤ 1 := by
    apply foldl_preserve
      (P := fun lims : Field => ∀ idx, 0 ≤ lims idx ∧ lims idx ≤ 1)
    · intro idx; norm_num
    · intro lims e _ hx
      simp only [limEdge]
      have hupd : ∀ (id : Nat) (l : Field), (∀ idx, 0 ≤ l idx ∧ l idx ≤ 1) →
          ∀ idx, 0 ≤ (if id < m.nRealCells ∧ m.cellsIsGhost id = false then
              setK V id (fun k x => min x
                (limVal V limiter_func sqrtFn m q gx gy
                  (m.edges.foldl (minmaxEdge V q) (q, q)).1
                  (m.edges.foldl (minmaxEdge V q) (q, q)).2 e id k)) l
            else l) idx
          ∧ (if id < m.nRealCells ∧ m.cellsIsGhost id = false then
              setK V id (fun k x => min x
                (limVal V limiter_func sqrtFn m q gx gy
                  (m.edges.foldl (minmaxEdge V q) (q, q)).1
                  (m.edges.foldl (minmaxEdge V q) (q, q)).2 e id k)) l
            else l) idx ≤ 1 := by
        intro id l hl idx
        split_ifs with hguard
        · simp only [setK]
          split_ifs with hblk
          · have hLV := limVal_bounds V limiter_func sqrtFn m q gx gy
              (m.edges.foldl (minmaxEdge V q) (q, q)).1
              (m.edges.foldl (minmaxEdge V q) (q, q)).2 e id (idx - V * id)
              limiter_func_bounds (hmm.1 _) (hmm.2 _)
            exact ⟨le_min (hl idx).1 hLV.1,
              le_trans (min_le_left _ _) (hl idx).2⟩
          · exact hl idx
        · exact hl idx
      exact hupd e.c1 _ (hupd e.c0 lims hx)
  exact hall (V * c + k)

theorem calc_limiters_range_witness :
    0 < demoMesh.nRealCells ∧ demoMesh.cellsIsGhost 0 = false ∧ 0 < 1
    ∧ (0 ≤ calc_limiters 1 limiter_func id demoMesh demoQ demoQ demoQ
          (1 * 0 + 0)
       ∧ calc_limiters 1 limiter_func id demoMesh demoQ demoQ demoQ
          (1 * 0 + 0) ≤ 1) :=
  ⟨by decide, by decide, by decide,
    calc_limiters_range 1 id demoMesh demoQ demoQ demoQ 0 0
      (by decide) (by decide) (by decide)⟩

theorem calc_residuals_global_witness :
    1 < ([⟨demoQ, demoMesh⟩, ⟨demoQ, demoMesh⟩] : List RankData).length
    ∧ 0 < 1
    ∧ (calc_residuals 1 id [⟨demoQ, demoMesh⟩, ⟨demoQ, demoMesh⟩]).getD 1
        (fun _ => 0) 0
      = id ((([⟨demoQ, demoMesh⟩, ⟨demoQ, demoMesh⟩] : List RankData).map
          fun rd =>
            ∑ i in Finset.range rd.m.nRealCells,
              (if rd.m.cellsIsGhost i then 0
               else rd.qt (1 * i + 0) * rd.qt (1 * i + 0)
                      * rd.m.cellsAreas i)).sum) :=
  ⟨by decide, by decide,
    calc_residuals_global 1 id [⟨demoQ, demoMesh⟩, ⟨demoQ, demoMesh⟩] 1 0
      (by decide) (by decide)⟩

/- ### Conservation on a closed domain (C2) -/

theorem sum_setK {V b k n : Nat} (hk : k < V) (hb : b < n)
    (upd : Nat → ℚ → ℚ) (g : Field) :
    ∑ c in Finset.range n, setK V b upd g (V * c + k)
      = (∑ c in Finset.range n, g (V * c + k))
        + (upd k (g (V * b + k)) - g (V * b + k)) := by
  have hbmem : b ∈ Finset.range n := Finset.mem_range.mpr hb
  have h1 : ∑ c in (Finset.range n).erase b, setK V b upd g (V * c + k)
      = ∑ c in (Finset.range n).erase b, g (V * c + k) :=
    Finset.sum_congr rfl
      (fun c hc => setK_other hk (Finset.ne_of_mem_erase hc) _ _)
  calc ∑ c in Finset.range n, setK V b upd g (V * c + k)
      = (∑ c in (Finset.range n).erase b, setK V b upd g (V * c + k))
          + setK V b upd g (V * b + k) :=
        (Finset.sum_erase_add _ _ hbmem).symm
    _ = (∑ c in (Finset.range n).erase b, g (V * c + k))
          + upd k (g (V * b + k)) := by rw [h1, setK_same hk]
    _ = ((∑ c in (Finset.range n).erase b, g (V * c + k)) + g (V * b + k))
          + (upd k (g (V * b + k)) - g (V * b + k)) := by ring
    _ = (∑ c in Finset.range n, g (V * c + k))
          + (upd k (g (V * b + k)) - g (V * b + k)) := by
        rw [Finset.sum_erase_add _ _ hbmem]

/-- The edge accumulation of `calc_time_derivatives` preserves the plain
sum of `qt` over all cells: each edge subtracts and adds the same
`f[k]*le`. -/
theorem qt_acc_sum (V : Nat) (flux : FluxFn) (m : Mesh)
    (q gx gy lims : Field) (k : Nat) (hk : k < V)
    (hclosed : ∀ e ∈ m.edges, e.c0 < m.nRealCells ∧ e.c1 < m.nRealCells)
    (hnn : m.nRealCells ≤ m.nCells) :
    ∑ c in Finset.range m.nCells,
      (m.edges.foldl (qtEdge V flux m q gx gy lims) (fun _ => 0)) (V * c + k)
      = 0 := by
  apply foldl_preserve
    (P := fun qt : Field => ∑ c in Finset.range m.nCells, qt (V * c + k) = 0)
  · simp
  · intro qt e he hqt
    have hc0 : e.c0 < m.nCells := lt_of_lt_of_le (hclosed e he).1 hnn
    have hc1 : e.c1 < m.nCells := lt_of_lt_of_le (hclosed e he).2 hnn
    simp only [qtEdge]
    rw [sum_setK hk hc1, sum_setK hk hc0, hqt]
    ring

/-- The edge accumulation of `calc_time_derivatives` leaves every
non-owned or ghost-flagged cell at zero when every edge joins owned
non-ghost cells. -/
theorem qt_acc_ghost (V : Nat) (flux : FluxFn) (m : Mesh)
    (q gx gy lims : Field)
    (hclosed : ∀ e ∈ m.edges,
      (e.c0 < m.nRealCells ∧ m.cellsIsGhost e.c0 = false)
      ∧ (e.c1 < m.nRealCells ∧ m.cellsIsGhost e.c1 = false)) :
    ∀ c k, k < V → (m.nRealCells ≤ c ∨ m.cellsIsGhost c = true) →
      (m.edges.foldl (qtEdge V flux m q gx gy lims) (fun _ => 0)) (V * c + k)
        = 0 := by
  apply foldl_preserve
    (P := fun qt : Field => ∀ c k, k < V →
      (m.nRealCells ≤ c ∨ m.cellsIsGhost c = true) → qt (V * c + k) = 0)
  · intro c k _ _; rfl
  · intro qt e he hqt c k hk hg
    have hne : ∀ b : Nat, b < m.nRealCells → m.cellsIsGhost b = false → c ≠ b := by
      intro b hb1 hb2 heq
      rcases hg with h | h
      · omega
      · rw [heq, hb2] at h; exact Bool.noConfusion h
    simp only [qtEdge]
    rw [setK_other hk (hne e.c1 (hclosed e he).2.1 (hclosed e he).2.2),
      setK_other hk (hne e.c0 (hclosed e he).1.1 (hclosed e he).1.2)]
    exact hqt c k hk hg

/-- After `calc_time_derivatives` on a closed mesh, the conserved total
`Σ A[c]*qt[V*c+k]` is zero. -/
theorem ctd_sum_zero (V : Nat) (flux : FluxFn) (m : Mesh)
    (q gx gy lims : Field) (k : Nat) (hk : k < V)
    (hclosed : ∀ e ∈ m.edges,
      (e.c0 < m.nRealCells ∧ m.cellsIsGhost e.c0 = false)
      ∧ (e.c1 < m.nRealCells ∧ m.cellsIsGhost e.c1 = false))
    (hnn : m.nRealCells ≤ m.nCells)
    (hA : ∀ c, c < m.nRealCells → m.cellsIsGhost c = false →
      m.cellsAreas c ≠ 0) :
    sumA V m k (calc_time_derivatives V flux m q gx gy lims) = 0 := by
  have hterm : ∀ c ∈ Finset.range m.nCells,
      m.cellsAreas c * calc_time_derivatives V flux m q gx gy lims (V * c + k)
        = (m.edges.foldl (qtEdge V flux m q gx gy lims) (fun _ => 0))
            (V * c + k) := by
    intro c hc
    have hcn : c < m.nCells := Finset.mem_range.mp hc
    simp only [calc_time_derivatives, flat_div hk, if_pos hcn]
    by_cases h1 : m.nRealCells ≤ c
    · rw [if_pos h1, mul_zero,
        qt_acc_ghost V flux m q gx gy lims hclosed c k hk (Or.inl h1)]
    · rw [if_neg h1]
      by_cases h2 : m.cellsIsGhost c = true
      · rw [if_pos h2, mul_zero,
          qt_acc_ghost V flux m q gx gy lims hclosed c k hk (Or.inr h2)]
      · rw [if_neg h2]
        have hAne := hA c (by omega) (by simpa using h2)
        field_simp

  rw [sumA, Finset.sum_congr rfl hterm]
  exact qt_acc_sum V flux m q gx gy lims k hk
    (fun e he => ⟨(hclosed e he).1.1, (hclosed e he).2.1⟩) hnn

/-- A stage update with a uniform dt shifts the conserved total by
`d * v` times the total of `qt`. -/
theorem sum_update_cells (V : Nat) (m : Mesh) (k : Nat)
    (ql qt dtf : Field) (v d : ℚ) (hdt : ∀ idx, dtf idx = d) :
    sumA V m k (update_cells ql qt dtf v)
      = sumA V m k ql + d * v * sumA V m k qt := by
  simp only [sumA, update_cells, hdt, Finset.mul_sum]
  rw [← Finset.sum_add_distrib]
  apply Finset.sum_congr rfl
  intro c _
  ring

/-- Claim C2: on a closed domain (every edge joins two owned non-ghost
cells, all of positive area) and with a uniform dt field (global_dt),
the conserved total `Σ A[c]*qt[V*c+k]` is zero after
`calc_time_derivatives`, and the full Runge-Kutta stage loop of one
driver step — each stage being `qk := q + qt*dt*α` — leaves the
conserved total `Σ A[c]*q[V*c+k]` unchanged. -/
theorem conservation_closed_domain (V : Nat) (flux : FluxFn)
    (lf sqrtFn : ℚ → ℚ) (flags : SolverFlags) (m : Mesh)
    (q qt0 gx0 gy0 lims0 dtf : Field) (alpha : List ℚ) (d : ℚ) (k : Nat)
    (hk : k < V)
    (hclosed : ∀ e ∈ m.edges,
      (e.c0 < m.nRealCells ∧ m.cellsIsGhost e.c0 = false)
      ∧ (e.c1 < m.nRealCells ∧ m.cellsIsGhost e.c1 = false))
    (hnn : m.nRealCells ≤ m.nCells)
    (hA : ∀ c, c < m.nRealCells → m.cellsIsGhost c = false →
      m.cellsAreas c ≠ 0)
    (hdt : ∀ idx, dtf idx = d) :
    sumA V m k (calc_time_derivatives V flux m q gx0 gy0 lims0) = 0
    ∧ sumA V m k
        (rk_stages V flux lf sqrtFn flags m q dtf qt0 gx0 gy0 lims0 alpha).1
      = sumA V m k q := by
  have hzero : ∀ qk gxa gya limsa,
      sumA V m k (calc_time_derivatives V flux m qk gxa gya limsa) = 0 :=
    fun qk gxa gya limsa =>
      ctd_sum_zero V flux m qk gxa gya limsa k hk hclosed hnn hA
  refine ⟨hzero q gx0 gy0 lims0, ?_⟩
  simp only [rk_stages]
  apply foldl_preserve
    (P := fun st : Field × Field × Field × Field × Field =>
      sumA V m k st.1 = sumA V m k q)
  · rfl
  · intro st a _ hst
    simp only [rk_stage, complete_calc_qt]
    rw [sum_update_cells V m k q _ dtf a d hdt, hzero]
    ring

theorem conservation_closed_domain_witness :
    0 < 1
    ∧ (∀ e ∈ closedMesh.edges,
        (e.c0 < closedMesh.nRealCells ∧ closedMesh.cellsIsGhost e.c0 = false)
        ∧ (e.c1 < closedMesh.nRealCells ∧ closedMesh.cellsIsGhost e.c1 = false))
    ∧ closedMesh.nRealCells ≤ closedMesh.nCells
    ∧ (sumA 1 closedMesh 0
        (calc_time_derivatives 1 constFlux closedMesh demoQ demoQ demoQ demoQ)
          = 0
      ∧ sumA 1 closedMesh 0
          (rk_stages 1 constFlux id id ⟨true, true, true⟩ closedMesh demoQ
            (fun _ => 1) demoQ demoQ demoQ demoQ [1/2, 1]).1
        = sumA 1 closedMesh 0 demoQ) :=
  ⟨by decide, by decide, by decide,
    conservation_closed_domain 1 constFlux id id ⟨true, true, true⟩ closedMesh
      demoQ demoQ demoQ demoQ demoQ (fun _ => 1) [1/2, 1] 1 0 (by decide)
      (by decide) (by decide) (fun c _ _ => one_ne_zero) (fun _ => rfl)⟩

/- ### Idempotence of update_bounds (C8) -/

/-- `update_bounds` leaves every index outside all ghost-target blocks
unchanged. -/
theorem update_bounds_untouched (V : Nat) :
    ∀ (bs : List BoundaryBinding) (q : Field) (idx : Nat),
      (∀ b ∈ bs, ¬(V * b.edge.c1 ≤ idx ∧ idx < V * b.edge.c1 + V)) →
      update_bounds V bs q idx = q idx := by
  intro bs
  induction bs with
  | nil => intro q idx _; rfl
  | cons b t ih =>
    intro q idx h
    have hstep : update_bounds V (b :: t) q
        = update_bounds V t (apply_bound V q b) := rfl
    rw [hstep, ih _ _ (fun b' hb' => h b' (List.mem_cons_of_mem b hb'))]
    simp only [apply_bound]
    exact setK_out (h b (List.mem_cons_self b t)) _ _

/-- If two states agree on every owned-cell source block of a binding
list whose ghost targets never serve as sources, then `update_bounds`
writes identical values into every target block. -/
theorem update_bounds_agree (V : Nat) :
    ∀ (bs : List BoundaryBinding) (q qb : Field),
      (∀ b ∈ bs, ∀ b' ∈ bs, b.edge.c1 ≠ b'.edge.c0) →
      (∀ b ∈ bs, ∀ f g n, (∀ j, j < V → f j = g j) → b.kernel f n = b.kernel g n) →
      (∀ b ∈ bs, ∀ j, j < V →
        q (V * b.edge.c0 + j) = qb (V * b.edge.c0 + j)) →
      ∀ idx, (∃ b ∈ bs, V * b.edge.c1 ≤ idx ∧ idx < V * b.edge.c1 + V) →
      update_bounds V bs q idx = update_bounds V bs qb idx := by
  intro bs
  induction bs with
  | nil =>
    intro q qb _ _ _ idx hidx
    rcases hidx with ⟨b, hb, _⟩
    exact absurd hb (List.not_mem_nil b)
  | cons b t ih =>
    intro q qb hdisj hker hsrc idx hidx
    have hstep : ∀ r : Field, update_bounds V (b :: t) r
        = update_bounds V t (apply_bound V r b) := fun _ => rfl
    rw [hstep q, hstep qb]
    have houtEq : apply_bound V q b = setK V b.edge.c1
        (fun k _ => b.kernel (off V b.edge.c0 q) (b.edge.nx, b.edge.ny) k) q := rfl
    have hkerEq : b.kernel (off V b.edge.c0 q) (b.edge.nx, b.edge.ny)
        = b.kernel (off V b.edge.c0 qb) (b.edge.nx, b.edge.ny) :=
      hker b (List.mem_cons_self b t) _ _ _
        (fun j hj => hsrc b (List.mem_cons_self b t) j hj)
    have hsrc' : ∀ b'' ∈ t, ∀ j, j < V →
        (apply_bound V q b) (V * b''.edge.c0 + j)
          = (apply_bound V qb b) (V * b''.edge.c0 + j) := by
      intro b'' hb'' j hj
      have hne : b''.edge.c0 ≠ b.edge.c1 :=
        (hdisj b (List.mem_cons_self b t) b'' (List.mem_cons_of_mem b hb'')).symm
      simp only [apply_bound]
      rw [setK_other hj hne, setK_other hj hne]
      exact hsrc b'' (List.mem_cons_of_mem b hb'') j hj
    by_cases htail : ∃ b' ∈ t, V * b'.edge.c1 ≤ idx ∧ idx < V * b'.edge.c1 + V
    · exact ih (apply_bound V q b) (apply_bound V qb b)
        (fun x hx y hy => hdisj x (List.mem_cons_of_mem b hx)
          y (List.mem_cons_of_mem b hy))
        (fun x hx => hker x (List.mem_cons_of_mem b hx))
        hsrc' idx htail
    · push_neg at htail
      rw [update_bounds_untouched V t _ idx
          (fun b' hb' => by
            intro hcontra
            have := htail b' hb' hcontra.1
            omega),
        update_bounds_untouched V t _ idx
          (fun b' hb' => by
            intro hcontra
            have := htail b' hb' hcontra.1
            omega)]
      have hblk : V * b.edge.c1 ≤ idx ∧ idx < V * b.edge.c1 + V := by
        rcases hidx with ⟨b0, hb0, hb0blk⟩
        rcases List.mem_cons.mp hb0 with rfl | hb0t
        · exact hb0blk
        · have := htail b0 hb0t hb0blk.1
          omega
      simp only [apply_bound, setK, if_pos hblk]
      rw [hkerEq]

/-- Claim C8: `update_bounds` is idempotent — with pure boundary kernels
(each kernel a function of the `V` owned-cell values and the normal),
each boundary edge pairing an owned non-ghost cell `edgesCells(e,0)`
with a ghost cell `edgesCells(e,1)`, calling `update_bounds` twice in
succession yields exactly the same `q` as calling it once: each call
reads only owned-cell entries and writes only ghost-cell entries, so
the second call rewrites every ghost with identical values. -/
theorem update_bounds_idempotent (V : Nat) (m : Mesh) (q : Field)
    (hgho : ∀ b ∈ m.bounds,
      (m.nRealCells ≤ b.edge.c1 ∨ m.cellsIsGhost b.edge.c1 = true)
      ∧ b.edge.c0 < m.nRealCells ∧ m.cellsIsGhost b.edge.c0 = false)
    (hker : ∀ b ∈ m.bounds, ∀ f g n,
      (∀ j, j < V → f j = g j) → b.kernel f n = b.kernel g n) :
    update_bounds V m.bounds (update_bounds V m.bounds q)
      = update_bounds V m.bounds q := by
  have hdisj : ∀ b ∈ m.bounds, ∀ b' ∈ m.bounds, b.edge.c1 ≠ b'.edge.c0 := by
    intro b hb b' hb' heq
    rcases (hgho b hb).1 with h | h
    · have h2 := (hgho b' hb').2.1
      omega
    · rw [heq, (hgho b' hb').2.2] at h
      exact Bool.noConfusion h
  funext idx
  by_cases hidx : ∃ b ∈ m.bounds, V * b.edge.c1 ≤ idx ∧ idx < V * b.edge.c1 + V
  · apply update_bounds_agree V m.bounds _ _ hdisj hker _ idx hidx
    intro b hb j hj
    apply update_bounds_untouched
    intro b' hb' hcontra
    have hmem : (V * b.edge.c0 + j) / V = b.edge.c0 := flat_div hj
    have : b.edge.c0 = b'.edge.c1 := by
      have hj' : j < V := hj
      exact (block_mem_iff hj').mp hcontra
    exact hdisj b' hb' b hb this.symm
  · push_neg at hidx
    have hnone : ∀ b ∈ m.bounds,
        ¬(V * b.edge.c1 ≤ idx ∧ idx < V * b.edge.c1 + V) := by
      intro b hb hcontra
      have := hidx b hb hcontra.1
      omega
    rw [update_bounds_untouched V m.bounds _ idx hnone,
      update_bounds_untouched V m.bounds q idx hnone]

theorem update_bounds_idempotent_witness :
    update_bounds 1 boundsMesh.bounds (update_bounds 1 boundsMesh.bounds demoQ)
      = update_bounds 1 boundsMesh.bounds demoQ :=
  update_bounds_idempotent 1 boundsMesh demoQ
    (by intro b hb; fin_cases hb <;> exact ⟨Or.inl (by decide), by decide, by decide⟩)
    (by
      intro b hb f g n hfg
      fin_cases hb
      show demoKernel f n = demoKernel g n
      funext j
      simp only [demoKernel]
      rw [hfg 0 (by decide)])

/- ### Termination of the driver loop (C7) -/

theorem exit_cond_true_of_max (V : Nat) (opt : SolverOptions) (s : RunState)
    (h : opt.max_step ≤ s.step) : exit_cond V opt s = true := by
  simp [exit_cond, h]

theorem step_lt_of_not_exit (V : Nat) (opt : SolverOptions) (s : RunState)
    (h : ¬ exit_cond V opt s = true) : s.step < opt.max_step := by
  by_contra hge
  exact h (exit_cond_true_of_max V opt s (by omega))

theorem run_loop_exit_aux (V : Nat) (flux : FluxFn) (lf sqrtFn : ℚ → ℚ)
    (flags : SolverFlags) (calcDt : Field → Mesh → Field) (m : Mesh)
    (opt : SolverOptions) (alpha : List ℚ) :
    ∀ (n : Nat) (s : RunState), opt.max_step - s.step ≤ n →
      exit_cond V opt
        (run_loop V flux lf sqrtFn flags calcDt m opt alpha s) = true := by
  intro n
  induction n with
  | zero =>
    intro s hs
    have hle : opt.max_step ≤ s.step := by omega
    rw [run_loop, if_pos (exit_cond_true_of_max V opt s hle)]
    exact exit_cond_true_of_max V opt s hle
  | succ n ih =>
    intro s hs
    rw [run_loop]
    by_cases h : exit_cond V opt s = true
    · rw [if_pos h]; exact h
    · rw [if_neg h]
      apply ih
      have h1 := step_lt_of_not_exit V opt s h
      have h2 : (run_body V flux lf sqrtFn flags calcDt m opt alpha s).step
          = s.step + 1 := rfl
      omega

theorem run_loop_step_le_aux (V : Nat) (flux : FluxFn) (lf sqrtFn : ℚ → ℚ)
    (flags : SolverFlags) (calcDt : Field → Mesh → Field) (m : Mesh)
    (opt : SolverOptions) (alpha : List ℚ) :
    ∀ (n : Nat) (s : RunState), opt.max_step - s.step ≤ n →
      s.step ≤ (run_loop V flux lf sqrtFn flags calcDt m opt alpha s).step := by
  intro n
  induction n with
  | zero =>
    intro s hs
    have hle : opt.max_step ≤ s.step := by omega
    rw [run_loop, if_pos (exit_cond_true_of_max V opt s hle)]
  | succ n ih =>
    intro s hs
    rw [run_loop]
    by_cases h : exit_cond V opt s = true
    · rw [if_pos h]
    · rw [if_neg h]
      have h1 := step_lt_of_not_exit V opt s h
      have h2 : (run_body V flux lf sqrtFn flags calcDt m opt alpha s).step
          = s.step + 1 := rfl
      have h3 := ih (run_body V flux lf sqrtFn flags calcDt m opt alpha s)
        (by omega)
      omega

theorem foldl_max_eq_sup (R : Nat → ℚ) :
    ∀ (V : Nat) (hV : V ≠ 0), (∀ k, k < V → 0 ≤ R k) →
      (List.range V).foldl (fun mx i => max (R i) mx) 0
        = (Finset.range V).sup' (Finset.nonempty_range_iff.mpr hV) R := by
  intro V
  induction V with
  | zero => intro h; exact absurd rfl h
  | succ n ih =>
    intro _ hR
    rw [List.range_succ, List.foldl_append]
    simp only [List.foldl_cons, List.foldl_nil]
    cases n with
    | zero =>
      show max (R 0) ((List.range 0).foldl _ 0) = _
      simp only [List.range_zero, List.foldl_nil]
      rw [max_eq_left (hR 0 (by omega))]
      apply le_antisymm
      · exact Finset.le_sup' R (Finset.mem_range.mpr (by omega))
      · apply Finset.sup'_le
        intro b hb
        have : b = 0 := by
          have := Finset.mem_range.mp hb; omega
        rw [this]
    | succ m =>
      have hm : m + 1 ≠ 0 := Nat.succ_ne_zero m
      rw [ih hm (fun k hk => hR k (Nat.lt_succ_of_lt hk))]
      apply le_antisymm
      · apply sup_le
        · exact Finset.le_sup' R (Finset.mem_range.mpr (by omega))
        · apply Finset.sup'_le
          intro b hb
          exact Finset.le_sup' R
            (Finset.mem_range.mpr (by have := Finset.mem_range.mp hb; omega))
      · apply Finset.sup'_le
        intro b hb
        have hb2 := Finset.mem_range.mp hb
        by_cases hbm : b = m + 1
        · rw [hbm]; exact le_sup_left
        · exact le_trans
            (Finset.le_sup' R (Finset.mem_range.mpr (by omega)))
            le_sup_right

/-- Claim C7: the driver's outer loop terminates exactly when, at the
top of an iteration, `step ≥ max_step`, or `time ≥ max_time`, or the
maximum over the variables `k < V` of `R[k]` is below `tolerance` (at
step 0 the residual test is bypassed by forcing the maximum to 1.0);
no other condition stops the loop — the loop's result always satisfies
the exit condition, and the loop returns its input unchanged exactly
when the input already satisfies it. -/
theorem run_terminates_iff (V : Nat) (flux : FluxFn) (lf sqrtFn : ℚ → ℚ)
    (flags : SolverFlags) (calcDt : Field → Mesh → Field) (m : Mesh)
    (opt : SolverOptions) (alpha : List ℚ) (s : RunState)
    (hV : 0 < V) (hR : ∀ k, k < V → 0 ≤ s.R k) :
    exit_cond V opt
      (run_loop V flux lf sqrtFn flags calcDt m opt alpha s) = true
    ∧ (run_loop V flux lf sqrtFn flags calcDt m opt alpha s = s
        ↔ exit_cond V opt s = true)
    ∧ (exit_cond V opt s = true
        ↔ (opt.max_step ≤ s.step ∨ opt.max_time ≤ s.time ∨
            (if 0 < s.step then
              (Finset.range V).sup'
                (Finset.nonempty_range_iff.mpr (Nat.pos_iff_ne_zero.mp hV)) s.R
             else 1) < opt.tolerance)) := by
  refine ⟨?_, ⟨?_, ?_⟩, ?_⟩
  · exact run_loop_exit_aux V flux lf sqrtFn flags calcDt m opt alpha
      (opt.max_step - s.step) s (le_refl _)
  · intro heq
    by_contra h
    have h1 := step_lt_of_not_exit V opt s h
    have h2 : (run_body V flux lf sqrtFn flags calcDt m opt alpha s).step
        = s.step + 1 := rfl
    have h3 : run_loop V flux lf sqrtFn flags calcDt m opt alpha s
        = run_loop V flux lf sqrtFn flags calcDt m opt alpha
            (run_body V flux lf sqrtFn flags calcDt m opt alpha s) := by
      rw [run_loop, if_neg h]
    have h4 := run_loop_step_le_aux V flux lf sqrtFn flags calcDt m opt alpha
      (opt.max_step
        - (run_body V flux lf sqrtFn flags calcDt m opt alpha s).step)
      (run_body V flux lf sqrtFn flags calcDt m opt alpha s) (le_refl _)
    have h5 : (run_loop V flux lf sqrtFn flags calcDt m opt alpha s).step
        = s.step := by rw [heq]
    rw [h3] at h5
    omega
  · intro h
    rw [run_loop, if_pos h]
  · simp only [exit_cond, Bool.or_eq_true, decide_eq_true_eq]
    by_cases hstep : 0 < s.step
    · rw [if_pos hstep, if_pos hstep,
        foldl_max_eq_sup s.R V (Nat.pos_iff_ne_zero.mp hV) hR]
      exact or_assoc
    · rw [if_neg hstep, if_neg hstep]
      exact or_assoc

theorem run_terminates_iff_witness :
    0 < 1
    ∧ (∀ k, k < 1 → 0 ≤ demoState.R k)
    ∧ (exit_cond 1 demoOpt
        (run_loop 1 constFlux limiter_func id ⟨true, true, true⟩ demoCalcDt
          demoMesh demoOpt [1] demoState) = true
      ∧ (run_loop 1 constFlux limiter_func id ⟨true, true, true⟩ demoCalcDt
          demoMesh demoOpt [1] demoState = demoState
          ↔ exit_cond 1 demoOpt demoState = true)
      ∧ (exit_cond 1 demoOpt demoState = true
          ↔ (demoOpt.max_step ≤ demoState.step
             ∨ demoOpt.max_time ≤ demoState.time
             ∨ (if 0 < demoState.step then
                  (Finset.range 1).sup'
                    (Finset.nonempty_range_iff.mpr
                      (Nat.pos_iff_ne_zero.mp (by decide))) demoState.R
                else 1) < demoOpt.tolerance))) :=
  ⟨by decide, fun k _ => by norm_num [demoState],
    run_terminates_iff 1 constFlux limiter_func id ⟨true, true, true⟩
      demoCalcDt demoMesh demoOpt [1] demoState (by decide)
      (fun k _ => by norm_num [demoState])⟩

end Fvhyper
